import Mathlib

/-!
Verification development for the `microsearch` library (`microsearch.py`).

The Python source is shallowly embedded as follows.

* Python strings are `List Char` (constant `Str`); Python compares strings
  lexicographically by code point, which is exactly the `LinearOrder (List Char)`
  order (`List.lt` over `Char`).
* A Python dict is an insertion-ordered association list `List (Str × _)`;
  `dict[k] = v` keeps the position of an existing key and appends a fresh key,
  which is `replaceFirst` / append below.
* A segment file is the list of its records, in file order.  The textual layer
  (`TERM\tJSON\n` lines, `parse_record` / `make_record`, the temporary file and
  the atomic rename) is abstracted away: a record is the pair
  `(term, posting)` it serialises, faithful for terms without tab or newline
  (every term produced by the analyzer) since JSON round-trips the posting
  dict exactly.  Reading a missing file is reading `[]`.
* CPython's `list(set(xs))` for the small non-negative ints used as positions
  iterates the hash table in ascending value order (ints hash to themselves),
  so it is modelled by sort-after-dedup (`pySetList`).
* Python exceptions are the explicit result type `PyRes`; an operation that
  also mutates state returns the state as it is at the moment of the raise.
* Scores: CPython raises `ZeroDivisionError` on float division by zero and
  `math.log` raises on non-positive input.  The claims under verification
  depend only on this definedness structure and on data flow, never on the
  numeric value of a logarithm, so scores are exact rationals (`PyNum`, an
  unreduced `Int` pair with positive denominator) and `math.log x` is the
  computable stand-in `x - 1`, which is defined, zero, negative and positive
  exactly where `log` is (on `x > 0`, at `x = 1`, on `x < 1`, on `x > 1`).
-/

/-- Python strings, as lists of code points. -/
abbrev Str := List Char

/-- A posting: dict mapping a document id to its list of positions. -/
abbrev Posting := List (Str × List Nat)

/-- A segment file: its `(term, posting)` records in file order. -/
abbrev Segment := List (Str × Posting)

/-- Python exceptions made explicit: a computation either returns or raises. -/
inductive PyRes (α : Type) where
  | ok (v : α)
  | err (e : String)
deriving DecidableEq, Repr

/-- First-match association-list lookup, i.e. a Python dict read. -/
def alookup (k : Str) : List (Str × α) → Option α
  | [] => none
  | (d, v) :: rest => if d = k then some v else alookup k rest

/-- Replace the value of the first entry with key `k`, keeping its position:
a Python dict write to an existing key. -/
def replaceFirst (k : Str) (v : α) : List (Str × α) → List (Str × α)
  | [] => []
  | (d, w) :: rest => if d = k then (k, v) :: rest else (d, w) :: replaceFirst k v rest


/-! ### Analyzer (`make_tokens`, `make_ngrams`) -/

/-- The punctuation class of `Microsearch.PUNCTUATION`
(`[~`+"`"+`!@#$%^&*()+={[}]|\:;"',<.>/?]`). -/
def PUNCT : List Char :=
  ['~', '`', '!', '@', '#', '$', '%', '^', '&', '*', '(', ')', '+', '=',
   '\x7b', '\x5b', '\x7d', '\x5d', '|', '\x5c', ':', ';', '\x22', '\x27',
   ',', '<', '.', '>', '/', '?']

/-- The stopword set `Microsearch.STOP_WORDS`. -/
def STOP_WORDS : List Str :=
  (["a", "an", "and", "are", "as", "at", "be", "but", "by",
    "for", "if", "in", "into", "is", "it",
    "no", "not", "of", "on", "or", "s", "such",
    "t", "that", "the", "their", "then", "there", "these",
    "they", "this", "to", "was", "will", "with"] : List String).map String.toList

/-- `PUNCTUATION.sub(' ', blob)`, character by character. -/
def subPunct (c : Char) : Char := if c ∈ PUNCT then ' ' else c

/-- Worker for whitespace splitting: first argument is the remaining input,
second the current (reversed) run of non-whitespace characters. -/
def splitWsAux : List Char → List Char → List Str
  | [], acc => if acc.isEmpty then [] else [acc.reverse]
  | c :: rest, acc =>
    if c.isWhitespace then
      (if acc.isEmpty then splitWsAux rest [] else acc.reverse :: splitWsAux rest [])
    else splitWsAux rest (c :: acc)

/-- Python `str.split()`: split on whitespace runs, dropping empty pieces. -/
def splitWs (l : List Char) : List Str := splitWsAux l []

/-- Python `str.lower()` (ASCII range, as relevant to the embedded corpus). -/
def lowerTok (t : Str) : Str := t.map Char.toLower

/-- Python `str.strip()`. -/
def stripTok (t : Str) : Str :=
  ((t.dropWhile Char.isWhitespace).reverse.dropWhile Char.isWhitespace).reverse

/-- `Microsearch.make_tokens`: kill punctuation, split on whitespace,
lowercase and strip each piece, and drop stopwords. -/
def make_tokens (blob : Str) : List Str :=
  ((splitWs (blob.map subPunct)).map (fun t => stripTok (lowerTok t))).filter
    (fun t => decide (¬ t ∈ STOP_WORDS))

/-- `enumerate(tokens)` starting at `i`. -/
def pyEnum (i : Nat) : List α → List (Nat × α)
  | [] => []
  | x :: xs => (i, x) :: pyEnum (i + 1) xs

/-- One step of `make_ngrams`' inner loop:
`terms.setdefault(gram, []); if position not in terms[gram]: terms[gram].append(position)`. -/
def addPos (terms : List (Str × List Nat)) (gram : Str) (position : Nat) :
    List (Str × List Nat) :=
  match alookup gram terms with
  | none => terms ++ [(gram, [position])]
  | some ps => if position ∈ ps then terms else replaceFirst gram (ps ++ [position]) terms

/-- `Microsearch.make_ngrams`: front n-grams of length
`range(min_gram, min(max_gram + 1, len(token) + 1))` for each token, with
0-based token positions collected per gram. -/
def make_ngrams (tokens : List Str) (min_gram max_gram : Nat) : List (Str × List Nat) :=
  (pyEnum 0 tokens).foldl
    (fun terms pt =>
      (List.range' min_gram (min (max_gram + 1) (pt.2.length + 1) - min_gram)).foldl
        (fun ts w => addPos ts (pt.2.take w) pt.1) terms)
    []


/-! ### Segment store (`update_term_info`, `save_segment`, `load_segment`) -/

/-- CPython's `list(set(l))` for small non-negative ints: ascending order,
no duplicates. -/
def pySetList (l : List Nat) : List Nat := List.insertionSort (· ≤ ·) l.dedup

/-- One step of `update_term_info`: fold in one `(doc_id, positions)` item of
the new posting.  A fresh doc id is shunted in wholesale (no dedup!); an
existing doc id gets the set union `list(set(orig) | set(new))`. -/
def updOne (acc : Posting) (d : Str) (ps : List Nat) : Posting :=
  match alookup d acc with
  | none => acc ++ [(d, ps)]
  | some ops => replaceFirst d (pySetList (ops ++ ps)) acc

/-- `Microsearch.update_term_info(orig_info, new_info)`. -/
def update_term_info (orig_info new_info : Posting) : Posting :=
  new_info.foldl (fun acc e => updOne acc e.1 e.2) orig_info

/-- The streaming rewrite loop of `save_segment`: walk the old records with the
`written` flag, inserting / overwriting / merging the record for `term`. -/
def saveLoop (term : Str) (info : Posting) (update : Bool) :
    Bool → Segment → Segment
  | written, [] => if written then [] else [(term, info)]
  | written, (st, si) :: rest =>
    if written = false ∧ term < st then
      (term, info) :: (st, si) :: saveLoop term info update true rest
    else if st = term then
      (term, if update then update_term_info si info else info) ::
        saveLoop term info update true rest
    else
      (st, si) :: saveLoop term info update written rest

/-- `Microsearch.save_segment(term, term_info, update)` on the contents of
`term`'s segment file (the temporary file plus atomic rename is abstracted
to the resulting record list). -/
def save_segment (term : Str) (term_info : Posting) (update : Bool) (seg : Segment) :
    Segment :=
  saveLoop term term_info update false seg

/-- `Microsearch.load_segment(term)`: posting of the first record for `term`,
`{}` when the file or the record is absent. -/
def load_segment (term : Str) (seg : Segment) : Posting :=
  (alookup term seg).getD []

/-- A segment has a record for `term`. -/
def hasTerm (seg : Segment) (term : Str) : Prop := (alookup term seg).isSome = true

/-- Well-formedness of a segment file: records strictly sorted by term. -/
def segSorted (seg : Segment) : Prop := seg.Pairwise (fun a b => a.1 < b.1)

/-- The keys of an association list are pairwise distinct (a real dict). -/
def nodupKeys (l : List (Str × α)) : Prop := (l.map Prod.fst).Nodup

instance (seg : Segment) : Decidable (segSorted seg) := by
  unfold segSorted
  infer_instance

instance (l : List (Str × α)) : Decidable (nodupKeys l) := by
  unfold nodupKeys
  infer_instance


/-! ### Scores (`PyNum`) -/

/-- An exact rational score: an unreduced fraction of `Int`s.  All operations
below keep the denominator positive. -/
structure PyNum where
  n : Int
  d : Int
deriving DecidableEq, Repr

/-- Embed a natural number. -/
def pofNat (k : Nat) : PyNum := ⟨(k : Int), 1⟩

/-- Embed an integer. -/
def pofInt (k : Int) : PyNum := ⟨k, 1⟩

def pAdd (x y : PyNum) : PyNum := ⟨x.n * y.d + y.n * x.d, x.d * y.d⟩

def pMul (x y : PyNum) : PyNum := ⟨x.n * y.n, x.d * y.d⟩

/-- Division, normalising the sign into the numerator. -/
def pDiv (x y : PyNum) : PyNum :=
  if x.d * y.n < 0 then ⟨-(x.n * y.d), -(x.d * y.n)⟩ else ⟨x.n * y.d, x.d * y.n⟩

/-- `x <= y` for positive-denominator fractions. -/
def pLeB (x y : PyNum) : Bool := decide (x.n * y.d ≤ y.n * x.d)

def pZero : PyNum := ⟨0, 1⟩

/-- Is the fraction zero (denominators are kept nonzero)? -/
def pIsZero (x : PyNum) : Bool := decide (x.n = 0)

/-- `math.log`: raises `ValueError` on non-positive input.  The returned value
is the computable stand-in `x - 1`, which is zero / negative / positive exactly
where `log` is; the verified claims never depend on the value itself. -/
def pyLog (x : PyNum) : PyRes PyNum :=
  if pLeB x pZero then .err "math domain error" else .ok (pAdd x (pofInt (-1)))


/-! ### Scorer (`bm25_relevance`) and result collection (`collect_results`) -/

/-- The loop of `bm25_relevance`: for each term,
`idf = log((total_docs - matches[term] + 1.0) / matches[term]) / log(1.0 + total_docs)`
and `score += current_doc.get(term, 0) * idf / (current_doc.get(term, 0) + k)`
with `k = 1.2`.  `matches[term]` raises `KeyError` when absent; the float
division raises `ZeroDivisionError` when `matches[term]` is zero. -/
def bm25Loop (matchDocs current_doc : List (Str × Nat)) (total_docs : Nat) :
    List Str → PyNum → PyRes PyNum
  | [], score => .ok score
  | term :: rest, score =>
    match alookup term matchDocs with
    | none => .err "KeyError"
    | some df =>
      if df = 0 then .err "ZeroDivisionError"
      else
        match pyLog (pDiv (pofInt ((total_docs : Int) - (df : Int) + 1)) (pofNat df)) with
        | .err e => .err e
        | .ok lnum =>
          match pyLog (pAdd (pofInt 1) (pofNat total_docs)) with
          | .err e => .err e
          | .ok lden =>
            if pIsZero lden then .err "ZeroDivisionError"
            else
              let idf := pDiv lnum lden
              let tf := pofNat ((alookup term current_doc).getD 0)
              bm25Loop matchDocs current_doc total_docs rest
                (pAdd score (pDiv (pMul tf idf) (pAdd tf ⟨6, 5⟩)))

/-- `Microsearch.bm25_relevance(terms, matches, current_doc, total_docs)` with
the default `b = 0`, `k = 1.2`; the final statement is
`0.5 + score / (2 * len(terms))`. -/
def bm25_relevance (terms : List Str) (matchDocs current_doc : List (Str × Nat))
    (total_docs : Nat) : PyRes PyNum :=
  match bm25Loop matchDocs current_doc total_docs terms pZero with
  | .err e => .err e
  | .ok score =>
    if terms.length = 0 then .err "ZeroDivisionError"
    else .ok (pAdd ⟨1, 2⟩ (pDiv score (pofNat (2 * terms.length))))

/-- `per_term_docs.setdefault(term, 0); per_term_docs[term] += n`. -/
def bumpBy (l : List (Str × Nat)) (k : Str) (n : Nat) : List (Str × Nat) :=
  match alookup k l with
  | none => l ++ [(k, n)]
  | some m => replaceFirst k (m + n) l

/-- `per_doc_counts.setdefault(doc_id, {}); ...[doc_id].setdefault(term, 0); += n`. -/
def bumpDoc (pdc : List (Str × List (Str × Nat))) (doc_id term : Str) (n : Nat) :
    List (Str × List (Str × Nat)) :=
  match alookup doc_id pdc with
  | none => pdc ++ [(doc_id, bumpBy [] term n)]
  | some inner => replaceFirst doc_id (bumpBy inner term n) pdc

/-- `Microsearch.collect_results(terms)` over the index contents:
`(per_term_docs, per_doc_counts)`. -/
def collect_results (segs : Segment) (terms : List Str) :
    List (Str × Nat) × List (Str × List (Str × Nat)) :=
  terms.foldl
    (fun acc term =>
      let tm := load_segment term segs
      (bumpBy acc.1 term tm.length,
       tm.foldl (fun pdc dp => bumpDoc pdc dp.1 term dp.2.length) acc.2))
    ([], [])


/-! ### Document store, searcher, indexer -/

/-- A JSON scalar stored in a document field (the shapes the claims need). -/
inductive JVal where
  | jstr (v : Str)
  | jnum (v : PyNum)
deriving DecidableEq, Repr

/-- A stored document payload: an insertion-ordered JSON object. -/
abbrev Doc := List (Str × JVal)

/-- The engine state: the inverted index (all segment records), the document
store, and the `total_docs` counter of `stats.json`. -/
structure Engine where
  segs : Segment
  docs : List (Str × Doc)
  total_docs : Nat
deriving DecidableEq, Repr

/-- `dict.update` for one key: overwrite in place or append. -/
def dictUpdate (doc : Doc) (k : Str) (v : JVal) : Doc :=
  match alookup k doc with
  | none => doc ++ [(k, v)]
  | some _ => replaceFirst k v doc

/-- `doc_dict.update({'id': doc_id, 'score': score})` in `search`'s hydration. -/
def mergeDoc (doc : Doc) (doc_id : Str) (score : PyNum) : Doc :=
  dictUpdate (dictUpdate doc ("id".toList) (JVal.jstr doc_id)) ("score".toList)
    (JVal.jnum score)

/-- Score all candidate docs of `per_doc_counts` in order, propagating the
first raised exception (the scoring loop of `search`). -/
def scoreAll (terms : List Str) (ptd : List (Str × Nat)) (total_docs : Nat) :
    List (Str × List (Str × Nat)) → PyRes (List (Str × PyNum))
  | [] => .ok []
  | (doc_id, cur) :: rest =>
    match bm25_relevance terms ptd cur total_docs with
    | .err e => .err e
    | .ok s =>
      match scoreAll terms ptd total_docs rest with
      | .err e => .err e
      | .ok xs => .ok ((doc_id, s) :: xs)

/-- Stable descending insertion by score: `x` goes before the first element it
is greater than or equal to.  This is exactly the (unique) result of Python's
stable `sorted(..., key=score, reverse=True)`. -/
def insertDesc (x : Str × PyNum) : List (Str × PyNum) → List (Str × PyNum)
  | [] => [x]
  | y :: ys => if pLeB y.2 x.2 then x :: y :: ys else y :: insertDesc x ys

/-- `sorted(scored_results, key=lambda res: res['score'], reverse=True)`. -/
def sortDesc : List (Str × PyNum) → List (Str × PyNum)
  | [] => []
  | x :: xs => insertDesc x (sortDesc xs)

/-- The hydration loop of `search`: load each sliced candidate's stored
payload (raising when absent) and merge in the computed `id` and `score`. -/
def hydrate (docs : List (Str × Doc)) : List (Str × PyNum) → PyRes (List Doc)
  | [] => .ok []
  | (doc_id, s) :: rest =>
    match alookup doc_id docs with
    | none => .err "NotFound"
    | some doc =>
      match hydrate docs rest with
      | .err e => .err e
      | .ok xs => .ok (mergeDoc doc doc_id s :: xs)

/-- `Microsearch.parse_query(query)`: the query's term → positions dict. -/
def parse_query (query : Str) : List (Str × List Nat) :=
  make_ngrams (make_tokens query) 3 6

/-- The result dict of `search`. -/
structure SearchResult where
  total_hits : Nat
  results : List Doc
deriving DecidableEq, Repr

/-- `Microsearch.search(query, offset, limit)`. -/
def search (e : Engine) (query : Str) (offset limit : Nat) : PyRes SearchResult :=
  if query.length = 0 then .ok ⟨0, []⟩
  else if e.total_docs = 0 then .ok ⟨0, []⟩
  else
    let terms := (parse_query query).map Prod.fst
    let collected := collect_results e.segs terms
    match scoreAll terms collected.1 e.total_docs collected.2 with
    | .err e => .err e
    | .ok scored =>
      let sorted := sortDesc scored
      match hydrate e.docs ((sorted.drop offset).take limit) with
      | .err e => .err e
      | .ok rs => .ok ⟨sorted.length, rs⟩

/-- The argument of `Microsearch.index`: either a mapping (dict) or a
non-mapping value (modelled by a string, the representative non-dict). -/
inductive PyDoc where
  | pystr (v : Str)
  | pydict (fields : Doc)
deriving DecidableEq, Repr

/-- `document.get('text', '')`, reading the blob to analyze (non-string
values are outside the verified claims). -/
def textField (fields : Doc) : Str :=
  match alookup ("text".toList) fields with
  | some (JVal.jstr s) => s
  | _ => []

/-- `save_document`: unconditional overwrite of the stored payload. -/
def save_document (docs : List (Str × Doc)) (doc_id : Str) (document : Doc) :
    List (Str × Doc) :=
  match alookup doc_id docs with
  | none => docs ++ [(doc_id, document)]
  | some _ => replaceFirst doc_id document docs

/-- `Microsearch.index(doc_id, document)`: validate the schema, then save the
payload, update each produced term's segment with `update=True`, and bump
`total_docs`.  The returned `Engine` is the state at return or at the moment
the exception is raised; both schema checks precede every effect. -/
def index (e : Engine) (doc_id : Str) (document : PyDoc) :
    Engine × PyRes Unit :=
  match document with
  | .pystr _ => (e, .err "AttributeError")
  | .pydict fields =>
    if (alookup ("text".toList) fields).isSome = false then (e, .err "KeyError")
    else
      let docs2 := save_document e.docs doc_id fields
      let terms := make_ngrams (make_tokens (textField fields)) 3 6
      let segs2 := terms.foldl
        (fun sg tp => save_segment tp.1 [(doc_id, tp.2)] true sg) e.segs
      (⟨segs2, docs2, e.total_docs + 1⟩, .ok ())


/-! ### Concrete states used by the witnesses and the failing input -/

/-- Index contents with one document `d1` matching the term `pet`. -/
def engineC1 : Engine :=
  ⟨[("pet".toList, [("d1".toList, [0])])], [("d1".toList, [])], 1⟩

/-- A non-empty index (the segment contents are irrelevant for a stopword
query). -/
def engineC9 : Engine := ⟨[], [], 1⟩

/-- A stored payload that already carries `id` and `score` fields. -/
def storedC10 : Doc :=
  [("id".toList, JVal.jstr ("junk".toList)),
   ("score".toList, JVal.jstr ("junk2".toList)),
   ("body".toList, JVal.jstr ("xx".toList))]

/-- Index contents with one document `d1` matching the term `hel`, whose
stored payload is `storedC10`. -/
def engineC10 : Engine :=
  ⟨[("hel".toList, [("d1".toList, [0])])], [("d1".toList, storedC10)], 1⟩

/-- The record hydration produces for `d1` under `search engineC10 "hel"`: the
computed `id` and `score` overwrite the junk stored fields in place, `body` is
untouched. -/
def docC10 : Doc :=
  [("id".toList, JVal.jstr ("d1".toList)),
   ("score".toList, JVal.jnum ⟨22, 44⟩),
   ("body".toList, JVal.jstr ("xx".toList))]

/-- What `search engineC10` returns for the query `hel`. -/
def resultC10 : SearchResult := ⟨1, [docC10]⟩

/-- Invariant of the term dict accumulated by `make_ngrams` (with the default
`min_gram = 3`, `max_gram = 6`): every entry is a front-slice of some input
token, of window length between 3 and 6 capped by the token length, and its
position list has no duplicates. -/
def gramOK (tokens : List Str) (e : Str × List Nat) : Prop :=
  (∃ tok ∈ tokens, ∃ w, 3 ≤ w ∧ w ≤ 6 ∧ w ≤ tok.length ∧ e.1 = tok.take w) ∧
    e.2.Nodup

/-- Equality of two position lists as sets. -/
def posEquiv (a b : List Nat) : Bool :=
  a.all (fun x => decide (x ∈ b)) && b.all (fun x => decide (x ∈ a))

/-- Observational equivalence of postings: the same doc ids in the same order,
with per-doc position lists equal as sets. -/
def postingEquiv : Posting → Posting → Bool
  | [], [] => true
  | (d, ps) :: r, (e, qs) :: s => decide (d = e) && posEquiv ps qs && postingEquiv r s
  | _, _ => false


/-! ## Lemmas: association lists -/

theorem alookup_mem {l : List (Str × α)} {k : Str} {v : α}
    (h : alookup k l = some v) : (k, v) ∈ l := by
  induction l with
  | nil => simp [alookup] at h
  | cons x rest ih =>
    obtain ⟨d, w⟩ := x
    by_cases hd : d = k
    · simp [alookup, hd] at h
      subst hd h
      exact List.mem_cons_self _ _
    · simp [alookup, hd] at h
      exact List.mem_cons_of_mem _ (ih h)

theorem alookup_append (k : Str) (l₁ l₂ : List (Str × α)) :
    alookup k (l₁ ++ l₂) =
      match alookup k l₁ with
      | some v => some v
      | none => alookup k l₂ := by
  induction l₁ with
  | nil => simp [alookup]
  | cons x rest ih =>
    obtain ⟨d, w⟩ := x
    by_cases hd : d = k <;> simp [alookup, hd, ih]

theorem alookup_replaceFirst_self {l : List (Str × α)} {k : Str} {w : α}
    (v : α) (h : alookup k l = some w) :
    alookup k (replaceFirst k v l) = some v := by
  induction l with
  | nil => simp [alookup] at h
  | cons x rest ih =>
    obtain ⟨d, u⟩ := x
    by_cases hd : d = k
    · simp [alookup, replaceFirst, hd]
    · simp [alookup, replaceFirst, hd] at h ⊢
      exact ih h

theorem alookup_replaceFirst_ne {k' k : Str} (hne : k' ≠ k) (v : α)
    (l : List (Str × α)) :
    alookup k' (replaceFirst k v l) = alookup k' l := by
  induction l with
  | nil => simp [replaceFirst]
  | cons x rest ih =>
    obtain ⟨d, u⟩ := x
    by_cases hd : d = k
    · subst hd
      have hdk : d ≠ k' := fun h => hne h.symm
      simp [alookup, replaceFirst, hdk]
    · simp [alookup, replaceFirst, hd, ih]

theorem alookup_nodupKeys {l : List (Str × α)} {k : Str} {v : α}
    (hnd : nodupKeys l) (h : (k, v) ∈ l) : alookup k l = some v := by
  induction l with
  | nil => simp at h
  | cons x rest ih =>
    obtain ⟨d, w⟩ := x
    rcases List.mem_cons.mp h with heq | hmem
    · cases heq
      simp [alookup]
    · rw [nodupKeys, List.map_cons, List.nodup_cons] at hnd
      have hd : d ≠ k := by
        intro hdk
        subst hdk
        exact hnd.1 (List.mem_map.mpr ⟨(d, v), hmem, rfl⟩)
      simp only [alookup, hd, if_false]
      exact ih hnd.2 hmem

theorem replaceFirst_mem {l : List (Str × α)} {k : Str} {v : α} {x : Str × α}
    (h : x ∈ replaceFirst k v l) : x ∈ l ∨ x = (k, v) := by
  induction l with
  | nil => simp [replaceFirst] at h
  | cons y rest ih =>
    obtain ⟨d, u⟩ := y
    by_cases hd : d = k
    · simp only [replaceFirst, if_pos hd] at h
      rcases List.mem_cons.mp h with h | h
      · exact Or.inr h
      · exact Or.inl (List.mem_cons_of_mem _ h)
    · simp only [replaceFirst, if_neg hd] at h
      rcases List.mem_cons.mp h with h | h
      · subst h
        exact Or.inl (List.mem_cons_self _ _)
      · rcases ih h with h' | h'
        · exact Or.inl (List.mem_cons_of_mem _ h')
        · exact Or.inr h'


/-! ## Lemmas: `pySetList` -/

theorem mem_pySetList {x : Nat} {l : List Nat} : x ∈ pySetList l ↔ x ∈ l := by
  unfold pySetList
  rw [(List.perm_insertionSort _ _).mem_iff]
  exact List.mem_dedup

theorem nodup_pySetList (l : List Nat) : (pySetList l).Nodup := by
  unfold pySetList
  exact (List.perm_insertionSort _ _).nodup_iff.mpr (List.nodup_dedup l)


/-! ## Lemmas: `update_term_info` -/

theorem U_nil_right (q : Posting) : update_term_info q [] = q := rfl

theorem U_cons (q : Posting) (d : Str) (ps : List Nat) (rest : Posting) :
    update_term_info q ((d, ps) :: rest) = update_term_info (updOne q d ps) rest := rfl

theorem alookup_updOne_ne {k' d : Str} (hne : k' ≠ d) (acc : Posting)
    (ps : List Nat) : alookup k' (updOne acc d ps) = alookup k' acc := by
  unfold updOne
  cases h : alookup d acc with
  | none =>
    rw [alookup_append]
    have hd : d ≠ k' := fun hh => hne hh.symm
    cases h' : alookup k' acc with
    | none => simp [alookup, hd]
    | some w => rfl
  | some w => exact alookup_replaceFirst_ne hne _ acc

theorem alookup_U_not_new {k : Str} (new : Posting) (q : Posting)
    (hk : ∀ e ∈ new, e.1 ≠ k) :
    alookup k (update_term_info q new) = alookup k q := by
  induction new generalizing q with
  | nil => rfl
  | cons e rest ih =>
    obtain ⟨d, ps⟩ := e
    rw [U_cons, ih _ (fun x hx => hk x (List.mem_cons_of_mem _ hx))]
    exact alookup_updOne_ne (Ne.symm (hk (d, ps) (List.mem_cons_self _ _))) q ps

theorem alookup_updOne_self (acc : Posting) (d : Str) (ps : List Nat) :
    alookup d (updOne acc d ps) =
      some (match alookup d acc with
            | none => ps
            | some w => pySetList (w ++ ps)) := by
  unfold updOne
  cases h : alookup d acc with
  | none =>
    rw [alookup_append, h]
    simp [alookup]
  | some w => exact alookup_replaceFirst_self _ h

theorem U_lookup_mem {new : Posting} {d : Str} {ps : List Nat}
    (hnd : nodupKeys new) (hmem : (d, ps) ∈ new) (q : Posting) :
    alookup d (update_term_info q new) =
      some (match alookup d q with
            | none => ps
            | some w => pySetList (w ++ ps)) := by
  induction new generalizing q with
  | nil => simp at hmem
  | cons e rest ih =>
    obtain ⟨d₀, ps₀⟩ := e
    rw [nodupKeys, List.map_cons, List.nodup_cons] at hnd
    rcases List.mem_cons.mp hmem with heq | hmem'
    · cases heq
      have hrest : ∀ x ∈ rest, x.1 ≠ d := by
        intro x hx hxd
        exact hnd.1 (hxd ▸ List.mem_map.mpr ⟨x, hx, rfl⟩)
      rw [U_cons, alookup_U_not_new rest _ hrest]
      exact alookup_updOne_self q d ps
    · have hd : d ≠ d₀ := by
        intro h
        subst h
        exact hnd.1 (List.mem_map.mpr ⟨(d, ps), hmem', rfl⟩)
      rw [U_cons, ih hnd.2 hmem' _, alookup_updOne_ne hd q ps₀]

theorem U_fresh {new : Posting} (q : Posting) (hnd : nodupKeys new)
    (hfresh : ∀ e ∈ new, alookup e.1 q = none) :
    update_term_info q new = q ++ new := by
  induction new generalizing q with
  | nil => simp [U_nil_right]
  | cons e rest ih =>
    obtain ⟨d, ps⟩ := e
    rw [nodupKeys, List.map_cons, List.nodup_cons] at hnd
    have h0 : alookup d q = none := hfresh (d, ps) (List.mem_cons_self _ _)
    rw [U_cons]
    unfold updOne
    rw [h0]
    rw [ih (q ++ [(d, ps)]) hnd.2]
    · simp
    · intro x hx
      rw [alookup_append, hfresh x (List.mem_cons_of_mem _ hx)]
      have hxd : d ≠ x.1 := by
        intro h
        exact hnd.1 (h ▸ List.mem_map.mpr ⟨x, hx, rfl⟩)
      simp [alookup, hxd]


/-! ## Lemmas: posting equivalence -/

theorem posEquiv_iff {a b : List Nat} :
    posEquiv a b = true ↔ ((∀ x ∈ a, x ∈ b) ∧ (∀ x ∈ b, x ∈ a)) := by
  simp [posEquiv, List.all_eq_true]

theorem posEquiv_refl (a : List Nat) : posEquiv a a = true :=
  posEquiv_iff.mpr ⟨fun _ h => h, fun _ h => h⟩

theorem posEquiv_trans {a b c : List Nat} (h1 : posEquiv a b = true)
    (h2 : posEquiv b c = true) : posEquiv a c = true := by
  rw [posEquiv_iff] at h1 h2 ⊢
  exact ⟨fun x hx => h2.1 x (h1.1 x hx), fun x hx => h1.2 x (h2.2 x hx)⟩

theorem postingEquiv_cons_iff {d e : Str} {ps qs : List Nat} {r s : Posting} :
    postingEquiv ((d, ps) :: r) ((e, qs) :: s) = true ↔
      (d = e ∧ posEquiv ps qs = true ∧ postingEquiv r s = true) := by
  simp [postingEquiv, Bool.and_eq_true, and_assoc]

theorem postingEquiv_refl (p : Posting) : postingEquiv p p = true := by
  induction p with
  | nil => rfl
  | cons e rest ih =>
    obtain ⟨d, ps⟩ := e
    exact postingEquiv_cons_iff.mpr ⟨rfl, posEquiv_refl ps, ih⟩

theorem postingEquiv_trans {a b c : Posting} (h1 : postingEquiv a b = true)
    (h2 : postingEquiv b c = true) : postingEquiv a c = true := by
  induction a generalizing b c with
  | nil =>
    cases b with
    | nil => cases c with
      | nil => rfl
      | cons y s => simp [postingEquiv] at h2
    | cons x r => simp [postingEquiv] at h1
  | cons x r ih =>
    obtain ⟨d, ps⟩ := x
    cases b with
    | nil => simp [postingEquiv] at h1
    | cons y s =>
      obtain ⟨e, qs⟩ := y
      cases c with
      | nil => simp [postingEquiv] at h2
      | cons z t =>
        obtain ⟨f, rs⟩ := z
        obtain ⟨hde, hpq, hrs⟩ := postingEquiv_cons_iff.mp h1
        obtain ⟨hef, hqr, hst⟩ := postingEquiv_cons_iff.mp h2
        exact postingEquiv_cons_iff.mpr
          ⟨hde.trans hef, posEquiv_trans hpq hqr, ih hrs hst⟩

theorem postingEquiv_replaceFirst {l : Posting} {k : Str} {w : List Nat}
    (v : List Nat) (hl : alookup k l = some w) (hv : posEquiv v w = true) :
    postingEquiv (replaceFirst k v l) l = true := by
  induction l with
  | nil => simp [alookup] at hl
  | cons x rest ih =>
    obtain ⟨d, u⟩ := x
    by_cases hd : d = k
    · subst hd
      simp [alookup] at hl
      subst hl
      simp only [replaceFirst, if_pos rfl]
      exact postingEquiv_cons_iff.mpr ⟨rfl, hv, postingEquiv_refl rest⟩
    · simp only [alookup, if_neg hd] at hl
      simp only [replaceFirst, if_neg hd]
      exact postingEquiv_cons_iff.mpr ⟨rfl, posEquiv_refl u, ih hl⟩

/-- Absorption: merging a posting each of whose position sets is already
contained in the stored set for its (present) doc id changes nothing up to
posting equivalence. -/
theorem U_absorb {new : Posting} (q : Posting) (hnd : nodupKeys new)
    (hpre : ∀ e ∈ new, ∃ w, alookup e.1 q = some w ∧ ∀ x ∈ e.2, x ∈ w) :
    postingEquiv (update_term_info q new) q = true := by
  induction new generalizing q with
  | nil => exact postingEquiv_refl q
  | cons e rest ih =>
    obtain ⟨d, ps⟩ := e
    rw [nodupKeys, List.map_cons, List.nodup_cons] at hnd
    obtain ⟨w₀, hw₀, hsub⟩ := hpre (d, ps) (List.mem_cons_self _ _)
    have hq' : updOne q d ps = replaceFirst d (pySetList (w₀ ++ ps)) q := by
      unfold updOne
      rw [hw₀]
    have hveq : posEquiv (pySetList (w₀ ++ ps)) w₀ = true := by
      rw [posEquiv_iff]
      constructor
      · intro x hx
        rcases List.mem_append.mp (mem_pySetList.mp hx) with h | h
        · exact h
        · exact hsub x h
      · intro x hx
        exact mem_pySetList.mpr (List.mem_append.mpr (Or.inl hx))
    have hq'q : postingEquiv (updOne q d ps) q = true := by
      rw [hq']
      exact postingEquiv_replaceFirst _ hw₀ hveq
    have hpre' : ∀ x ∈ rest, ∃ w, alookup x.1 (updOne q d ps) = some w ∧
        ∀ y ∈ x.2, y ∈ w := by
      intro x hx
      obtain ⟨w, hw, hs⟩ := hpre x (List.mem_cons_of_mem _ hx)
      have hxd : x.1 ≠ d := by
        intro h
        exact hnd.1 (h ▸ List.mem_map.mpr ⟨x, hx, rfl⟩)
      exact ⟨w, (alookup_updOne_ne hxd q ps).symm ▸ hw, hs⟩
    rw [U_cons]
    exact postingEquiv_trans (ih (updOne q d ps) hnd.2 hpre') hq'q


/-! ## Lemmas: `save_segment` / `load_segment` -/

theorem alookup_none_of_ne {l : List (Str × α)} {k : Str}
    (h : ∀ x ∈ l, x.1 ≠ k) : alookup k l = none := by
  induction l with
  | nil => rfl
  | cons x rest ih =>
    obtain ⟨d, v⟩ := x
    simp only [alookup, if_neg (h (d, v) (List.mem_cons_self _ _) : d ≠ k)]
    exact ih fun x hx => h x (List.mem_cons_of_mem _ hx)

/-- Once `written` is set, the remaining loop only re-merges further records
for `term` (a duplicate-tolerant sweep) and copies everything else. -/
theorem saveLoop_true_map (t : Str) (p : Posting) (u : Bool) (l : Segment) :
    saveLoop t p u true l =
      l.map (fun x =>
        if x.1 = t then (t, if u then update_term_info x.2 p else p) else x) := by
  induction l with
  | nil => rfl
  | cons x rest ih =>
    obtain ⟨st, si⟩ := x
    simp only [saveLoop, List.map_cons]
    rw [if_neg (by simp)]
    by_cases h : st = t
    · rw [if_pos h, ih]
      simp [h]
    · rw [if_neg h, ih]
      simp [h]

theorem saveLoop_true_id {t : Str} {p : Posting} {u : Bool} {l : Segment}
    (h : ∀ x ∈ l, x.1 ≠ t) : saveLoop t p u true l = l := by
  rw [saveLoop_true_map]
  apply List.map_congr_left ?_ |>.trans l.map_id
  intro x hx
  simp [h x hx]

theorem saveLoop_keys {t : Str} {p : Posting} {u : Bool} :
    ∀ (w : Bool) (l : Segment), ∀ x ∈ saveLoop t p u w l,
      x.1 = t ∨ x.1 ∈ l.map Prod.fst := by
  intro w l
  induction l generalizing w with
  | nil =>
    intro x hx
    cases w with
    | true => simp [saveLoop] at hx
    | false =>
      simp only [saveLoop, if_neg (by simp : ¬ (false : Bool) = true)] at hx
      rcases List.mem_singleton.mp hx with h
      exact Or.inl (by rw [h])
  | cons y rest ih =>
    obtain ⟨st, si⟩ := y
    intro x hx
    simp only [saveLoop] at hx
    split at hx
    · rcases List.mem_cons.mp hx with h | h
      · exact Or.inl (by rw [h])
      · rcases List.mem_cons.mp h with h' | h'
        · rw [h']
          exact Or.inr (by simp)
        · rcases ih true x h' with h'' | h''
          · exact Or.inl h''
          · exact Or.inr (by simp [h''])
    · split at hx
      · rcases List.mem_cons.mp hx with h | h
        · exact Or.inl (by rw [h])
        · rcases ih true x h with h'' | h''
          · exact Or.inl h''
          · exact Or.inr (by simp [h''])
      · rcases List.mem_cons.mp hx with h | h
        · rw [h]
          exact Or.inr (by simp)
        · rcases ih w x h with h'' | h''
          · exact Or.inl h''
          · exact Or.inr (by simp [h''])

/-- The record for `term` is always present after a save. -/
theorem saveLoop_false_hasTerm (t : Str) (p : Posting) (u : Bool) (l : Segment) :
    (alookup t (saveLoop t p u false l)).isSome = true := by
  induction l with
  | nil => simp [saveLoop, alookup]
  | cons y rest ih =>
    obtain ⟨st, si⟩ := y
    by_cases h1 : t < st
    · simp [saveLoop, h1, alookup]
    · by_cases h2 : st = t
      · simp [saveLoop, h1, h2, alookup]
      · simpa [saveLoop, h1, h2, alookup] using ih

/-- Saving `term` never disturbs the first record of any other term. -/
theorem saveLoop_alookup_ne {u' t : Str} (hne : u' ≠ t) (p : Posting)
    (u : Bool) (l : Segment) :
    ∀ w, alookup u' (saveLoop t p u w l) = alookup u' l := by
  have ht : t ≠ u' := fun h => hne h.symm
  induction l with
  | nil =>
    intro w
    cases w with
    | true => rfl
    | false => simp [saveLoop, alookup, ht]
  | cons y rest ih =>
    obtain ⟨st, si⟩ := y
    intro w
    by_cases h1 : w = false ∧ t < st
    · have heq : saveLoop t p u w ((st, si) :: rest) =
          (t, p) :: (st, si) :: saveLoop t p u true rest := by
        obtain ⟨hw, hlt⟩ := h1
        subst hw
        simp [saveLoop, hlt]
      rw [heq]
      by_cases h : st = u'
      · simp [alookup, ht, h]
      · simp [alookup, ht, h, ih true]
    · by_cases h2 : st = t
      · have heq : saveLoop t p u w ((st, si) :: rest) =
            (t, if u = true then update_term_info si p else p) ::
              saveLoop t p u true rest := by
          simp [saveLoop, h1, h2]
        rw [heq]
        simp [alookup, ht, h2, ih true]
      · have heq : saveLoop t p u w ((st, si) :: rest) =
            (st, si) :: saveLoop t p u w rest := by
          simp [saveLoop, h1, h2]
        rw [heq]
        by_cases h : st = u'
        · simp [alookup, h]
        · simp [alookup, h, ih w]

/-- The save rewrite preserves strict sortedness of a segment. -/
theorem saveLoop_sorted {l : Segment} (t : Str) (p : Posting) (u : Bool)
    (hs : segSorted l) : segSorted (saveLoop t p u false l) := by
  induction l with
  | nil => simp [saveLoop, segSorted]
  | cons y rest ih =>
    obtain ⟨st, si⟩ := y
    rw [segSorted, List.pairwise_cons] at hs
    by_cases h1 : t < st
    · have hrest : saveLoop t p u true rest = rest :=
        saveLoop_true_id fun x hx hxt =>
          absurd h1 (asymm (hxt ▸ hs.1 x hx))
      have heq : saveLoop t p u false ((st, si) :: rest) =
          (t, p) :: (st, si) :: rest := by
        simp [saveLoop, h1, hrest]
      rw [heq, segSorted, List.pairwise_cons, List.pairwise_cons]
      refine ⟨?_, ?_, hs.2⟩
      · intro b hb
        rcases List.mem_cons.mp hb with h | h
        · rw [h]
          exact h1
        · exact h1.trans (hs.1 b h)
      · exact hs.1
    · by_cases h2 : st = t
      · have hrest : saveLoop t p u true rest = rest :=
          saveLoop_true_id fun x hx hxt => by
            have h3 : st < x.1 := hs.1 x hx
            rw [h2, hxt] at h3
            exact absurd h3 (lt_irrefl t)
        have heq : saveLoop t p u false ((st, si) :: rest) =
            (t, if u = true then update_term_info si p else p) :: rest := by
          simp [saveLoop, h1, h2, hrest]
        rw [heq, segSorted, List.pairwise_cons]
        exact ⟨fun b hb => h2 ▸ hs.1 b hb, hs.2⟩
      · have hstt : st < t := by
          rcases lt_trichotomy st t with h | h | h
          · exact h
          · exact absurd h h2
          · exact absurd h h1
        have heq : saveLoop t p u false ((st, si) :: rest) =
            (st, si) :: saveLoop t p u false rest := by
          simp [saveLoop, h1, h2]
        rw [heq, segSorted, List.pairwise_cons]
        refine ⟨?_, ih hs.2⟩
        intro b hb
        rcases saveLoop_keys false rest b hb with h | h
        · rw [h]
          exact hstt
        · obtain ⟨x, hx, hxb⟩ := List.mem_map.mp h
          exact hxb ▸ hs.1 x hx

/-- Decomposition of a merge-save from an arbitrary prior state: everything
before the first record for `term` is a copied record whose term is neither
`term` nor greater than it, and the first `term` record holds either the new
posting verbatim or a merge of it into some prior posting. -/
theorem saveLoop_false_decomp (t : Str) (p : Posting) (l : Segment) :
    ∃ A v B, saveLoop t p true false l = A ++ (t, v) :: B ∧
      (∀ x ∈ A, x.1 ≠ t ∧ ¬ t < x.1) ∧
      (v = p ∨ ∃ o, v = update_term_info o p) := by
  induction l with
  | nil =>
    refine ⟨[], p, [], ?_, by simp, Or.inl rfl⟩
    simp [saveLoop]
  | cons x rest ih =>
    obtain ⟨st, si⟩ := x
    by_cases h1 : t < st
    · refine ⟨[], p, (st, si) :: saveLoop t p true true rest, ?_, by simp, Or.inl rfl⟩
      simp [saveLoop, h1]
    · by_cases h2 : st = t
      · refine ⟨[], update_term_info si p, saveLoop t p true true rest, ?_, by simp,
          Or.inr ⟨si, rfl⟩⟩
        simp [saveLoop, h1, h2]
      · obtain ⟨A, v, B, heq, hA, hv⟩ := ih
        refine ⟨(st, si) :: A, v, B, ?_, ?_, hv⟩
        · have heq2 : saveLoop t p true false ((st, si) :: rest) =
              (st, si) :: saveLoop t p true false rest := by
            simp [saveLoop, h1, h2]
          rw [heq2, heq, List.cons_append]
        · intro x hx
          rcases List.mem_cons.mp hx with h | h
          · rw [h]
            exact ⟨h2, h1⟩
          · exact hA x h

/-- Running the merge-save a second time walks the copied prefix unchanged,
re-merges the first `term` record, and sweeps the tail with `written` set. -/
theorem saveLoop_second (t : Str) (p v : Posting) (A B : Segment)
    (hA : ∀ x ∈ A, x.1 ≠ t ∧ ¬ t < x.1) :
    saveLoop t p true false (A ++ (t, v) :: B) =
      A ++ (t, update_term_info v p) :: saveLoop t p true true B := by
  induction A with
  | nil => simp [saveLoop, lt_irrefl]
  | cons x A' ih =>
    obtain ⟨st, si⟩ := x
    have h := hA (st, si) (List.mem_cons_self _ _)
    have heq2 : saveLoop t p true false (((st, si) :: A') ++ (t, v) :: B) =
        (st, si) :: saveLoop t p true false (A' ++ (t, v) :: B) := by
      simp [saveLoop, h.1, h.2]
    rw [heq2, ih fun x hx => hA x (List.mem_cons_of_mem _ hx), List.cons_append]

/-- Loads after the second merge-save agree, up to posting equivalence, with
loads after the first. -/
theorem load_equiv_second (t : Str) (p v : Posting) (A B : Segment)
    (hA : ∀ x ∈ A, x.1 ≠ t)
    (hv : postingEquiv (update_term_info v p) v = true) (uq : Str) :
    postingEquiv
      (load_segment uq (A ++ (t, update_term_info v p) :: saveLoop t p true true B))
      (load_segment uq (A ++ (t, v) :: B)) = true := by
  induction A with
  | nil =>
    by_cases hu : uq = t
    · subst hu
      simpa [load_segment, alookup] using hv
    · have htu : t ≠ uq := fun h => hu h.symm
      simp only [List.nil_append, load_segment, alookup, if_neg htu]
      rw [saveLoop_alookup_ne hu p true B true]
      exact postingEquiv_refl _
  | cons x A' ih =>
    obtain ⟨st, si⟩ := x
    by_cases h : st = uq
    · simpa [load_segment, alookup, h] using postingEquiv_refl si
    · simp only [List.cons_append, load_segment, alookup, if_neg h]
      exact ih fun x hx => hA x (List.mem_cons_of_mem _ hx)

/-- Re-merging the same posting (with distinct doc ids) into any posting it
was already merged into changes nothing up to posting equivalence. -/
theorem U_merge_absorb {p : Posting} (hnd : nodupKeys p) (v : Posting)
    (hv : v = p ∨ ∃ o, v = update_term_info o p) :
    postingEquiv (update_term_info v p) v = true := by
  rcases hv with rfl | ⟨o, rfl⟩
  · apply U_absorb _ hnd
    intro e he
    exact ⟨e.2, alookup_nodupKeys hnd he, fun x hx => hx⟩
  · apply U_absorb _ hnd
    intro e he
    obtain ⟨d, ps⟩ := e
    rw [U_lookup_mem hnd he o]
    cases halo : alookup d o with
    | none => exact ⟨ps, rfl, fun x hx => hx⟩
    | some w =>
      exact ⟨pySetList (w ++ ps), rfl,
        fun x hx => mem_pySetList.mpr (List.mem_append.mpr (Or.inr hx))⟩

/-- On a sorted segment, a merge-save composes the stored posting (empty when
absent) with `update_term_info`. -/
theorem load_save_merge_sorted {s : Segment} {t : Str} {p : Posting}
    (hs : segSorted s) (hnd : nodupKeys p) :
    load_segment t (save_segment t p true s) =
      update_term_info (load_segment t s) p := by
  induction s with
  | nil =>
    rw [show load_segment t [] = [] from rfl, U_fresh [] hnd (fun e he => rfl)]
    simp [save_segment, saveLoop, load_segment, alookup]
  | cons x rest ih =>
    obtain ⟨st, si⟩ := x
    rw [segSorted, List.pairwise_cons] at hs
    by_cases h1 : t < st
    · have hne : ∀ x ∈ (st, si) :: rest, x.1 ≠ t := by
        intro x hx hxt
        rcases List.mem_cons.mp hx with h | h
        · rw [h] at hxt
          have hst : st = t := hxt
          rw [hst] at h1
          exact lt_irrefl t h1
        · have h3 : st < x.1 := hs.1 x h
          rw [hxt] at h3
          exact lt_irrefl t (h1.trans h3)
      have heq : save_segment t p true ((st, si) :: rest) =
          (t, p) :: (st, si) :: saveLoop t p true true rest := by
        simp [save_segment, saveLoop, h1]
      rw [heq,
        show load_segment t ((t, p) :: (st, si) :: saveLoop t p true true rest) = p
          from by simp [load_segment, alookup],
        show load_segment t ((st, si) :: rest) = [] from by
          simp [load_segment, alookup_none_of_ne hne],
        U_fresh [] hnd (fun e he => rfl)]
      simp
    · by_cases h2 : st = t
      · subst h2
        have heq : save_segment st p true ((st, si) :: rest) =
            (st, update_term_info si p) :: saveLoop st p true true rest := by
          simp [save_segment, saveLoop, h1]
        rw [heq]
        simp [load_segment, alookup]
      · have heq : save_segment t p true ((st, si) :: rest) =
            (st, si) :: save_segment t p true rest := by
          simp [save_segment, saveLoop, h1, h2]
        have hload : ∀ l : Segment, load_segment t ((st, si) :: l) = load_segment t l :=
          fun l => by simp [load_segment, alookup, h2]
        rw [heq, hload, hload, ih hs.2]

/-- Overwrite-then-load returns the new posting, from any prior state. -/
theorem load_save_overwrite (t : Str) (p : Posting) (s : Segment) :
    load_segment t (save_segment t p false s) = p := by
  induction s with
  | nil => simp [save_segment, saveLoop, load_segment, alookup]
  | cons x rest ih =>
    obtain ⟨st, si⟩ := x
    by_cases h1 : t < st
    · simp [save_segment, saveLoop, h1, load_segment, alookup]
    · by_cases h2 : st = t
      · simp [save_segment, saveLoop, h1, h2, load_segment, alookup]
      · simpa [save_segment, saveLoop, h1, h2, load_segment, alookup] using ih

theorem segSorted_nodupKeys {l : Segment} (h : segSorted l) : nodupKeys l :=
  List.pairwise_map.mpr (h.imp fun hlt => ne_of_lt hlt)


/-! ## Claim C6 -/

/-- C6: overwrite-then-load round-trip: for every term `t` and posting `p`,
`save(t, p, overwrite)` followed by `load(t)` returns `p`, regardless of the
prior contents of `t`'s segment. -/
theorem c6_overwrite_load_roundtrip (t : Str) (p : Posting) (s : Segment) :
    load_segment t (save_segment t p false s) = p :=
  load_save_overwrite t p s


/-! ## Claim C2 -/

/-- C2-counterexample: merge is not idempotent in the strict observational
sense.  Starting from an empty segment, `save(t, {d: [2, 1]}, merge)` once
stores the list `[2, 1]` verbatim, while saving it twice passes the list
through `list(set(...))` and stores `[1, 2]`: the subsequent loads differ. -/
theorem c2_merge_not_strictly_idempotent :
    load_segment ("abc".toList)
        (save_segment ("abc".toList) [("d".toList, [2, 1])] true
          (save_segment ("abc".toList) [("d".toList, [2, 1])] true []))
      ≠ load_segment ("abc".toList)
          (save_segment ("abc".toList) [("d".toList, [2, 1])] true []) := by decide

/-- C2 (amended): merge is idempotent up to the order of positions: for every
posting `p` with pairwise-distinct doc ids, every prior segment state and
every term, `save(t, p, merge)` twice is observationally equal to once, where
a load of any term is compared by doc id sequence and per-doc position sets. -/
theorem c2_merge_idempotent_upto_order (s : Segment) (t : Str) (p : Posting)
    (uq : Str) (hnd : nodupKeys p) :
    postingEquiv
      (load_segment uq (save_segment t p true (save_segment t p true s)))
      (load_segment uq (save_segment t p true s)) = true := by
  obtain ⟨A, v, B, heq, hA, hv⟩ := saveLoop_false_decomp t p s
  have heq1 : save_segment t p true s = A ++ (t, v) :: B := heq
  have heq2 : save_segment t p true (save_segment t p true s) =
      A ++ (t, update_term_info v p) :: saveLoop t p true true B := by
    rw [heq1]
    exact saveLoop_second t p v A B hA
  rw [heq2, heq1]
  exact load_equiv_second t p v A B (fun x hx => (hA x hx).1)
    (U_merge_absorb hnd v hv) uq

/-- C2-witness: the amended idempotence at a concrete segment, term and
posting. -/
theorem c2_merge_idempotent_upto_order_wit :
    postingEquiv
      (load_segment ("abc".toList)
        (save_segment ("abc".toList) [("d".toList, [2, 1])] true
          (save_segment ("abc".toList) [("d".toList, [2, 1])] true [])))
      (load_segment ("abc".toList)
        (save_segment ("abc".toList) [("d".toList, [2, 1])] true [])) = true :=
  c2_merge_idempotent_upto_order [] ("abc".toList) [("d".toList, [2, 1])]
    ("abc".toList) (by decide)


/-! ## Claim C3 -/

/-- C3-counterexample: positions are not always stored without duplicates.
For a doc id absent from the existing posting, the incoming position list is
shunted in wholesale: merging `{d: [1, 1]}` into an empty segment stores
`[1, 1]`, which has a duplicate. -/
theorem c3_merge_duplicates_kept :
    ¬ ((alookup ("d".toList)
        (load_segment ("abc".toList)
          (save_segment ("abc".toList) [("d".toList, [1, 1])] true []))).getD
        []).Nodup := by decide

/-- C3 (amended): on a well-formed (sorted) segment, merging a posting `p`
with pairwise-distinct doc ids and duplicate-free position lists unions
position sets per doc id: each doc id of `p` ends with a duplicate-free list
whose members are exactly the union of the incoming positions and the
previously stored ones, and every doc id absent from `p` keeps its stored
positions unchanged. -/
theorem c3_merge_unions_positions (s : Segment) (t : Str) (p : Posting)
    (hs : segSorted s) (hnd : nodupKeys p)
    (hvals : ∀ e ∈ p, (e.2 : List Nat).Nodup) :
    (∀ e ∈ p, ∃ v,
        alookup e.1 (load_segment t (save_segment t p true s)) = some v ∧
        v.Nodup ∧
        ∀ x, x ∈ v ↔ (x ∈ e.2 ∨ x ∈ (alookup e.1 (load_segment t s)).getD [])) ∧
    (∀ d : Str, d ∉ p.map Prod.fst →
        alookup d (load_segment t (save_segment t p true s)) =
          alookup d (load_segment t s)) := by
  rw [load_save_merge_sorted hs hnd]
  constructor
  · intro e he
    obtain ⟨d, ps⟩ := e
    rw [U_lookup_mem hnd he (load_segment t s)]
    cases halo : alookup d (load_segment t s) with
    | none =>
      refine ⟨ps, rfl, hvals (d, ps) he, ?_⟩
      intro x
      simp
    | some w =>
      refine ⟨pySetList (w ++ ps), rfl, nodup_pySetList _, ?_⟩
      intro x
      rw [mem_pySetList, List.mem_append]
      simp [or_comm]
  · intro d hd
    exact alookup_U_not_new p (load_segment t s)
      fun e he hkeq => hd (hkeq ▸ List.mem_map.mpr ⟨e, he, rfl⟩)

/-- C3-witness: the concrete scenario of the claim: after
`save(t, {d: [1, 5]}, merge)` and then `save(t, {d: [3, 5]}, merge)` on an
initially empty segment, `load(t)[d]` is `[1, 3, 5]` — as a set, `{1, 3, 5}`. -/
theorem c3_merge_unions_positions_wit :
    alookup ("d".toList)
        (load_segment ("abc".toList)
          (save_segment ("abc".toList) [("d".toList, [3, 5])] true
            (save_segment ("abc".toList) [("d".toList, [1, 5])] true []))) =
      some [1, 3, 5] := by
  have h := (c3_merge_unions_positions
    (save_segment ("abc".toList) [("d".toList, [1, 5])] true [])
    ("abc".toList) [("d".toList, [3, 5])]
    (by decide) (by decide) (by decide)).1 ("d".toList, [3, 5]) (by decide)
  decide


/-! ## Claim C4 -/

/-- C4: the update protocol keeps segment records unique and sorted: saving
two distinct terms into a well-formed segment, in either order (the two terms
are arbitrary) and with either mode, leaves both terms loadable and the
records strictly sorted by term with no duplicate term record. -/
theorem c4_segment_sorted_unique (s : Segment) (t1 t2 : Str)
    (p1 p2 : Posting) (m1 m2 : Bool) (hs : segSorted s) (hne : t1 ≠ t2) :
    hasTerm (save_segment t2 p2 m2 (save_segment t1 p1 m1 s)) t1 ∧
    hasTerm (save_segment t2 p2 m2 (save_segment t1 p1 m1 s)) t2 ∧
    segSorted (save_segment t2 p2 m2 (save_segment t1 p1 m1 s)) ∧
    nodupKeys (save_segment t2 p2 m2 (save_segment t1 p1 m1 s)) := by
  have hsorted : segSorted (save_segment t2 p2 m2 (save_segment t1 p1 m1 s)) :=
    saveLoop_sorted t2 p2 m2 (saveLoop_sorted t1 p1 m1 hs)
  refine ⟨?_, ?_, hsorted, segSorted_nodupKeys hsorted⟩
  · rw [hasTerm, save_segment,
      saveLoop_alookup_ne hne p2 m2 (save_segment t1 p1 m1 s) false]
    exact saveLoop_false_hasTerm t1 p1 m1 s
  · exact saveLoop_false_hasTerm t2 p2 m2 _

/-! ## Claim C5 -/

/-- C5: `index` called with a non-mapping document raises `AttributeError`,
and with a mapping lacking a `text` field raises `KeyError` — two distinct
schema errors — and in both cases the state is completely unchanged: no
payload stored, no segment written, `total_docs` not incremented. -/
theorem c5_index_schema_guard (e : Engine) (doc_id : Str) (v : Str)
    (fields : Doc) (hmiss : alookup ("text".toList) fields = none) :
    index e doc_id (PyDoc.pystr v) = (e, PyRes.err "AttributeError") ∧
    index e doc_id (PyDoc.pydict fields) = (e, PyRes.err "KeyError") ∧
    ("AttributeError" : String) ≠ "KeyError" := by
  refine ⟨rfl, ?_, by decide⟩
  simp only [index]
  rw [hmiss]
  simp

/-- C5-witness: the schema guard at a concrete state and document. -/
theorem c5_index_schema_guard_wit :
    index engineC9 ("d1".toList) (PyDoc.pystr ("zz".toList)) =
      (engineC9, PyRes.err "AttributeError") ∧
    index engineC9 ("d1".toList)
        (PyDoc.pydict [("body".toList, JVal.jstr ("x".toList))]) =
      (engineC9, PyRes.err "KeyError") ∧
    ("AttributeError" : String) ≠ "KeyError" :=
  c5_index_schema_guard engineC9 ("d1".toList) ("zz".toList)
    [("body".toList, JVal.jstr ("x".toList))] (by decide)


/-! ## Claim C1 -/

/-- C1 (code bug): the scorer is not guarded against `df[t] = 0`.  In
`engineC1` the index holds one document matching the query term `pet`, and the
query `pet xyz` additionally yields the term `xyz` with zero document
frequency; `bm25_relevance` computes `idf` for every query term, so the
division `(total_docs - matches[term] + 1.0) / matches[term]` raises
`ZeroDivisionError` and `search` fails instead of returning a ranked result. -/
theorem c1_zero_df_search_raises :
    load_segment ("pet".toList) engineC1.segs = [("d1".toList, [0])] ∧
    load_segment ("xyz".toList) engineC1.segs = [] ∧
    search engineC1 ("pet xyz".toList) 0 20 = PyRes.err "ZeroDivisionError" := by
  exact ⟨by decide, by decide, by decide⟩


/-! ## Claim C9 -/

/-- C9: a non-empty query whose analysis yields zero terms (all tokens are
stopwords or shorter than `MIN_GRAM`) on an index with `total_docs > 0`
returns `total_hits = 0` with no results and no error. -/
theorem c9_zero_terms_empty_result (e : Engine) (query : Str)
    (offset limit : Nat) (hq : query ≠ []) (hterms : parse_query query = [])
    (hdocs : 0 < e.total_docs) :
    search e query offset limit = PyRes.ok ⟨0, []⟩ := by
  have hlen : ¬ query.length = 0 := by
    simpa [List.length_eq_zero] using hq
  have htd : ¬ e.total_docs = 0 := Nat.pos_iff_ne_zero.mp hdocs
  simp [search, if_neg hlen, if_neg htd, hterms, collect_results, scoreAll,
    sortDesc, hydrate]

/-- C9-witness: the stopword query `to` against a one-document index. -/
theorem c9_zero_terms_empty_result_wit :
    search engineC9 ("to".toList) 0 20 = PyRes.ok ⟨0, []⟩ :=
  c9_zero_terms_empty_result engineC9 ("to".toList) 0 20 (by decide) (by decide)
    (by decide)


/-! ## Claim C10: hydration lemmas -/

theorem alookup_dictUpdate_self (doc : Doc) (k : Str) (v : JVal) :
    alookup k (dictUpdate doc k v) = some v := by
  unfold dictUpdate
  cases h : alookup k doc with
  | none =>
    rw [alookup_append, h]
    simp [alookup]
  | some w => exact alookup_replaceFirst_self v h

theorem alookup_dictUpdate_ne {k' k : Str} (hne : k' ≠ k) (doc : Doc)
    (v : JVal) : alookup k' (dictUpdate doc k v) = alookup k' doc := by
  unfold dictUpdate
  cases h : alookup k doc with
  | none =>
    rw [alookup_append]
    have hd : k ≠ k' := fun hh => hne hh.symm
    cases h' : alookup k' doc with
    | none => simp [alookup, hd]
    | some w => rfl
  | some w => exact alookup_replaceFirst_ne hne v doc

theorem mergeDoc_id (doc : Doc) (d : Str) (s : PyNum) :
    alookup ("id".toList) (mergeDoc doc d s) = some (JVal.jstr d) := by
  unfold mergeDoc
  rw [alookup_dictUpdate_ne (by decide), alookup_dictUpdate_self]

theorem mergeDoc_score (doc : Doc) (d : Str) (s : PyNum) :
    alookup ("score".toList) (mergeDoc doc d s) = some (JVal.jnum s) :=
  alookup_dictUpdate_self _ _ _

theorem mergeDoc_other {k : Str} (hk1 : k ≠ "id".toList)
    (hk2 : k ≠ "score".toList) (doc : Doc) (d : Str) (s : PyNum) :
    alookup k (mergeDoc doc d s) = alookup k doc := by
  unfold mergeDoc
  rw [alookup_dictUpdate_ne hk2, alookup_dictUpdate_ne hk1]

/-- Every record hydration returns is the stored payload of some sliced
candidate, merged with that candidate's computed id and score. -/
theorem hydrate_mem {docs : List (Str × Doc)} {sliced : List (Str × PyNum)}
    {rs : List Doc} (h : hydrate docs sliced = PyRes.ok rs) :
    ∀ r ∈ rs, ∃ ds ∈ sliced, ∃ stored,
      alookup ds.1 docs = some stored ∧ r = mergeDoc stored ds.1 ds.2 := by
  induction sliced generalizing rs with
  | nil =>
    rw [hydrate] at h
    cases h
    intro r hr
    simp at hr
  | cons x rest ih =>
    obtain ⟨d, s⟩ := x
    rw [hydrate] at h
    cases hlo : alookup d docs with
    | none => rw [hlo] at h; cases h
    | some doc =>
      rw [hlo] at h
      cases hrest : hydrate docs rest with
      | err msg => rw [hrest] at h; cases h
      | ok xs =>
        rw [hrest] at h
        cases h
        intro r hr
        rcases List.mem_cons.mp hr with hr | hr
        · exact ⟨(d, s), List.mem_cons_self _ _, doc, hlo, hr⟩
        · obtain ⟨ds, hds, stored, hst, hm⟩ := ih hrest r hr
          exact ⟨ds, List.mem_cons_of_mem _ hds, stored, hst, hm⟩


/-! ## Claim C10 -/

/-- C10: in every successful search, each returned record is a stored payload
merged with the search-computed `id` and `score`: the computed values win over
any stored `id` or `score` field, and every other stored field is returned
unchanged. -/
theorem c10_computed_id_score_win (e : Engine) (query : Str)
    (offset limit : Nat) (r : SearchResult)
    (h : search e query offset limit = PyRes.ok r) :
    ∀ doc ∈ r.results, ∃ d s stored,
      alookup d e.docs = some stored ∧
      doc = mergeDoc stored d s ∧
      alookup ("id".toList) doc = some (JVal.jstr d) ∧
      alookup ("score".toList) doc = some (JVal.jnum s) ∧
      ∀ k : Str, k ≠ "id".toList → k ≠ "score".toList →
        alookup k doc = alookup k stored := by
  by_cases hq : query.length = 0
  · rw [search, if_pos hq] at h
    cases h
    intro doc hdoc
    simp at hdoc
  · by_cases htd : e.total_docs = 0
    · rw [search, if_neg hq, if_pos htd] at h
      cases h
      intro doc hdoc
      simp at hdoc
    · simp only [search] at h
      rw [if_neg hq, if_neg htd] at h
      split at h
      · cases h
      · next scored hsc =>
        split at h
        · cases h
        · next rs hhy =>
          cases h
          intro doc hdoc
          obtain ⟨ds, hds, stored, hst, hm⟩ := hydrate_mem hhy doc hdoc
          refine ⟨ds.1, ds.2, stored, hst, hm, ?_, ?_, ?_⟩
          · rw [hm]
            exact mergeDoc_id stored ds.1 ds.2
          · rw [hm]
            exact mergeDoc_score stored ds.1 ds.2
          · intro k hk1 hk2
            rw [hm]
            exact mergeDoc_other hk1 hk2 stored ds.1 ds.2

/-- C10-witness: at `engineC10`, the stored payload of `d1` carries junk `id`
and `score` fields; the searched record returns the computed values and keeps
`body`. -/
theorem c10_computed_id_score_win_wit :
    alookup ("id".toList) docC10 = some (JVal.jstr ("d1".toList)) ∧
    alookup ("score".toList) docC10 = some (JVal.jnum ⟨22, 44⟩) ∧
    alookup ("body".toList) docC10 = alookup ("body".toList) storedC10 := by
  obtain ⟨d, s, stored, hst, hm, hid, hsc, hoth⟩ :=
    c10_computed_id_score_win engineC10 ("hel".toList) 0 20 resultC10
      (by decide) docC10 (by decide)
  exact ⟨hid.trans (by rw [← hid]; decide), hsc.trans (by rw [← hsc]; decide),
    by decide⟩

/-- C4-witness: both terms loadable and the file sorted after two concrete
saves (insertion below an existing record, one save per mode). -/
theorem c4_segment_sorted_unique_wit :
    hasTerm (save_segment ("abc".toList) [("d2".toList, [1])] true
      (save_segment ("abd".toList) [("d1".toList, [0])] false [])) ("abd".toList) ∧
    hasTerm (save_segment ("abc".toList) [("d2".toList, [1])] true
      (save_segment ("abd".toList) [("d1".toList, [0])] false [])) ("abc".toList) ∧
    segSorted (save_segment ("abc".toList) [("d2".toList, [1])] true
      (save_segment ("abd".toList) [("d1".toList, [0])] false [])) ∧
    nodupKeys (save_segment ("abc".toList) [("d2".toList, [1])] true
      (save_segment ("abd".toList) [("d1".toList, [0])] false [])) :=
  c4_segment_sorted_unique [] ("abd".toList) ("abc".toList)
    [("d1".toList, [0])] [("d2".toList, [1])] false true (by decide) (by decide)


/-! ## Lemmas: analyzer characters -/

/-- ASCII lowering of an uppercase code point lands on a lowercase letter:
fixed by `toLower`, not whitespace, not punctuation. -/
theorem ofNat_shift_facts : ∀ n : Nat, 65 ≤ n → n ≤ 90 →
    (Char.toLower (Char.ofNat (n + 32)) = Char.ofNat (n + 32) ∧
     (Char.ofNat (n + 32)).isWhitespace = false ∧
     Char.ofNat (n + 32) ∉ PUNCT) := by
  intro n h1 h2
  interval_cases n <;> exact ⟨by decide, by decide, by decide⟩

theorem toLower_split (c : Char) :
    (65 ≤ c.toNat ∧ c.toNat ≤ 90 ∧ Char.toLower c = Char.ofNat (c.toNat + 32)) ∨
    Char.toLower c = c := by
  by_cases h : c.toNat ≥ 65 ∧ c.toNat ≤ 90
  · exact Or.inl ⟨h.1, h.2, by
      rw [show Char.toLower c =
        if c.toNat ≥ 65 ∧ c.toNat ≤ 90 then Char.ofNat (c.toNat + 32) else c
        from rfl, if_pos h]⟩
  · exact Or.inr (by
      rw [show Char.toLower c =
        if c.toNat ≥ 65 ∧ c.toNat ≤ 90 then Char.ofNat (c.toNat + 32) else c
        from rfl, if_neg h])

/-- `str.lower()` output is a fixed point of lowering ("is lowercase"). -/
theorem toLower_fix (c : Char) :
    Char.toLower (Char.toLower c) = Char.toLower c := by
  rcases toLower_split c with ⟨h1, h2, heq⟩ | heq
  · rw [heq]
    exact (ofNat_shift_facts c.toNat h1 h2).1
  · rw [heq]
    exact heq

theorem toLower_not_punct {c : Char} (h : c ∉ PUNCT) :
    Char.toLower c ∉ PUNCT := by
  rcases toLower_split c with ⟨h1, h2, heq⟩ | heq
  · rw [heq]
    exact (ofNat_shift_facts c.toNat h1 h2).2.2
  · rw [heq]
    exact h

theorem toLower_not_ws {c : Char} (h : c.isWhitespace = false) :
    (Char.toLower c).isWhitespace = false := by
  rcases toLower_split c with ⟨h1, h2, heq⟩ | heq
  · rw [heq]
    exact (ofNat_shift_facts c.toNat h1 h2).2.1
  · rw [heq]
    exact h

theorem subPunct_not_punct (c : Char) : subPunct c ∉ PUNCT := by
  unfold subPunct
  split
  · decide
  · next h => exact h


/-! ## Lemmas: whitespace splitting and stripping -/

theorem splitWsAux_props :
    ∀ (l acc : List Char), (∀ c ∈ acc, c.isWhitespace = false) →
      ∀ p ∈ splitWsAux l acc,
        p ≠ [] ∧ ∀ c ∈ p, (c ∈ l ∨ c ∈ acc) ∧ c.isWhitespace = false := by
  intro l
  induction l with
  | nil =>
    intro acc hacc p hp
    rw [splitWsAux] at hp
    by_cases he : acc.isEmpty
    · rw [if_pos he] at hp
      simp at hp
    · rw [if_neg he] at hp
      rcases List.mem_singleton.mp hp with rfl
      refine ⟨?_, ?_⟩
      · intro hrev
        rw [List.reverse_eq_nil_iff] at hrev
        exact he (by rw [hrev]; rfl)
      · intro c hc
        rw [List.mem_reverse] at hc
        exact ⟨Or.inr hc, hacc c hc⟩
  | cons x rest ih =>
    intro acc hacc p hp
    rw [splitWsAux] at hp
    by_cases hws : x.isWhitespace = true
    · rw [if_pos hws] at hp
      have hfromnil : p ∈ splitWsAux rest [] →
          p ≠ [] ∧ ∀ c ∈ p, (c ∈ x :: rest ∨ c ∈ acc) ∧ c.isWhitespace = false := by
        intro hp'
        obtain ⟨hne, hc⟩ := ih [] (by simp) p hp'
        refine ⟨hne, fun c hcp => ?_⟩
        rcases (hc c hcp).1 with h | h
        · exact ⟨Or.inl (List.mem_cons_of_mem _ h), (hc c hcp).2⟩
        · simp at h
      by_cases he : acc.isEmpty
      · rw [if_pos he] at hp
        exact hfromnil hp
      · rw [if_neg he] at hp
        rcases List.mem_cons.mp hp with rfl | hp'
        · refine ⟨?_, ?_⟩
          · intro hrev
            rw [List.reverse_eq_nil_iff] at hrev
            exact he (by rw [hrev]; rfl)
          · intro c hc
            rw [List.mem_reverse] at hc
            exact ⟨Or.inr hc, hacc c hc⟩
        · exact hfromnil hp'
    · rw [if_neg hws] at hp
      have hws' : x.isWhitespace = false := by
        simpa using hws
      have haccx : ∀ c ∈ x :: acc, c.isWhitespace = false := by
        intro c hcx
        rcases List.mem_cons.mp hcx with rfl | h'
        · exact hws'
        · exact hacc c h'
      obtain ⟨hne, hc⟩ := ih (x :: acc) haccx p hp
      refine ⟨hne, fun c hcp => ?_⟩
      rcases (hc c hcp).1 with h | h
      · exact ⟨Or.inl (List.mem_cons_of_mem _ h), (hc c hcp).2⟩
      · rcases List.mem_cons.mp h with rfl | h'
        · exact ⟨Or.inl (List.mem_cons_self _ _), (hc c hcp).2⟩
        · exact ⟨Or.inr h', (hc c hcp).2⟩

theorem dropWhile_ws_id {t : List Char}
    (h : ∀ c ∈ t, c.isWhitespace = false) :
    t.dropWhile Char.isWhitespace = t := by
  cases t with
  | nil => rfl
  | cons x xs => simp [List.dropWhile_cons, h x (List.mem_cons_self _ _)]

theorem stripTok_id {t : Str} (h : ∀ c ∈ t, c.isWhitespace = false) :
    stripTok t = t := by
  unfold stripTok
  rw [dropWhile_ws_id h,
    dropWhile_ws_id (fun c hc => h c (List.mem_reverse.mp hc)),
    List.reverse_reverse]


/-! ## Lemmas: `make_tokens` -/

theorem make_tokens_props :
    ∀ (blob : Str) (tok : Str), tok ∈ make_tokens blob →
      tok ≠ [] ∧ (∀ c ∈ tok, Char.toLower c = c ∧ c ∉ PUNCT) ∧
      tok ∉ STOP_WORDS := by
  intro blob tok htok
  unfold make_tokens at htok
  rw [List.mem_filter] at htok
  obtain ⟨piece, hpiece, rfl⟩ := List.mem_map.mp htok.1
  have hprops := splitWsAux_props (blob.map subPunct) [] (by simp) piece hpiece
  have hlow : ∀ c ∈ lowerTok piece,
      c.isWhitespace = false ∧ Char.toLower c = c ∧ c ∉ PUNCT := by
    intro c hc
    obtain ⟨c', hc', rfl⟩ := List.mem_map.mp hc
    have h2 := hprops.2 c' hc'
    have hnp : c' ∉ PUNCT := by
      rcases h2.1 with h | h
      · obtain ⟨c0, hc0, rfl⟩ := List.mem_map.mp h
        exact subPunct_not_punct c0
      · simp at h
    exact ⟨toLower_not_ws h2.2, toLower_fix c', toLower_not_punct hnp⟩
  have hstrip : stripTok (lowerTok piece) = lowerTok piece :=
    stripTok_id fun c hc => (hlow c hc).1
  refine ⟨?_, ?_, of_decide_eq_true htok.2⟩
  · rw [hstrip]
    intro hnil
    rw [lowerTok, List.map_eq_nil_iff] at hnil
    exact hprops.1 hnil
  · rw [hstrip]
    intro c hc
    exact ⟨(hlow c hc).2.1, (hlow c hc).2.2⟩


/-! ## Lemmas: `make_ngrams` -/

theorem pyEnum_mem {l : List α} :
    ∀ (i : Nat) (x : Nat × α), x ∈ pyEnum i l → x.2 ∈ l := by
  induction l with
  | nil =>
    intro i x hx
    simp [pyEnum] at hx
  | cons y ys ih =>
    intro i x hx
    rw [pyEnum] at hx
    rcases List.mem_cons.mp hx with rfl | hx'
    · exact List.mem_cons_self _ _
    · exact List.mem_cons_of_mem _ (ih (i + 1) x hx')

theorem addPos_inv {tokens : List Str} {ts : List (Str × List Nat)}
    {gram : Str} {pos : Nat}
    (hts : ∀ e ∈ ts, gramOK tokens e)
    (hg : ∃ tok ∈ tokens, ∃ w, 3 ≤ w ∧ w ≤ 6 ∧ w ≤ tok.length ∧ gram = tok.take w) :
    ∀ e ∈ addPos ts gram pos, gramOK tokens e := by
  intro e he
  unfold addPos at he
  cases halo : alookup gram ts with
  | none =>
    rw [halo] at he
    have he' : e ∈ ts ++ [(gram, [pos])] := he
    rcases List.mem_append.mp he' with h | h
    · exact hts e h
    · rcases List.mem_singleton.mp h with rfl
      exact ⟨hg, List.nodup_singleton _⟩
  | some ps =>
    rw [halo] at he
    have he' : e ∈ if pos ∈ ps then ts else replaceFirst gram (ps ++ [pos]) ts := he
    by_cases hpos : pos ∈ ps
    · rw [if_pos hpos] at he'
      exact hts e he'
    · rw [if_neg hpos] at he'
      rcases replaceFirst_mem he' with h | rfl
      · exact hts e h
      · have hold : (gram, ps) ∈ ts := alookup_mem halo
        have hnodup : ps.Nodup := (hts (gram, ps) hold).2
        refine ⟨hg, ?_⟩
        rw [List.nodup_append]
        refine ⟨hnodup, List.nodup_singleton _, ?_⟩
        intro a ha hb
        rcases List.mem_singleton.mp hb with rfl
        exact hpos ha

theorem ngram_inner_inv {tokens : List Str} {token : Str}
    (htok : token ∈ tokens) (pos : Nat) :
    ∀ (ws : List Nat) (ts : List (Str × List Nat)),
      (∀ w ∈ ws, 3 ≤ w ∧ w ≤ 6 ∧ w ≤ token.length) →
      (∀ e ∈ ts, gramOK tokens e) →
      ∀ e ∈ ws.foldl (fun acc w => addPos acc (token.take w) pos) ts,
        gramOK tokens e := by
  intro ws
  induction ws with
  | nil =>
    intro ts _ hts e he
    exact hts e he
  | cons w ws' ih =>
    intro ts hws hts
    rw [List.foldl_cons]
    refine ih _ (fun w' hw' => hws w' (List.mem_cons_of_mem _ hw')) ?_
    exact addPos_inv hts
      ⟨token, htok, w, (hws w (List.mem_cons_self _ _)).1,
        (hws w (List.mem_cons_self _ _)).2.1,
        (hws w (List.mem_cons_self _ _)).2.2, rfl⟩

theorem ngram_outer_inv {tokens : List Str} :
    ∀ (es : List (Nat × Str)) (ts : List (Str × List Nat)),
      (∀ x ∈ es, x.2 ∈ tokens) →
      (∀ e ∈ ts, gramOK tokens e) →
      ∀ e ∈ es.foldl
          (fun terms pt =>
            (List.range' 3 (min (6 + 1) (pt.2.length + 1) - 3)).foldl
              (fun acc w => addPos acc (pt.2.take w) pt.1) terms)
          ts,
        gramOK tokens e := by
  intro es
  induction es with
  | nil =>
    intro ts _ hts e he
    exact hts e he
  | cons x es' ih =>
    intro ts hes hts
    rw [List.foldl_cons]
    refine ih _ (fun y hy => hes y (List.mem_cons_of_mem _ hy)) ?_
    refine ngram_inner_inv (hes x (List.mem_cons_self _ _)) x.1 _ ts ?_ hts
    intro w hw
    rw [List.mem_range'] at hw
    obtain ⟨i, hi, rfl⟩ := hw
    have hm1 : min (6 + 1) (x.2.length + 1) ≤ 6 + 1 := Nat.min_le_left _ _
    have hm2 : min (6 + 1) (x.2.length + 1) ≤ x.2.length + 1 := Nat.min_le_right _ _
    omega

theorem make_ngrams_props (tokens : List Str) :
    ∀ e ∈ make_ngrams tokens 3 6,
      (∃ tok ∈ tokens, ∃ w, e.1 = tok.take w) ∧
      3 ≤ e.1.length ∧ e.1.length ≤ 6 ∧ e.2.Nodup := by
  intro e he
  have h := ngram_outer_inv (pyEnum 0 tokens) []
    (fun x hx => pyEnum_mem 0 x hx) (by simp) e he
  obtain ⟨⟨tok, htok, w, hw3, hw6, hwlen, hgram⟩, hnodup⟩ := h
  have hlen : e.1.length = w := by
    rw [hgram, List.length_take]
    omega
  exact ⟨⟨tok, htok, w, hgram⟩, by omega, by omega, hnodup⟩

theorem make_ngrams_short {tokens : List Str}
    (h : ∀ tok ∈ tokens, tok.length < 3) : make_ngrams tokens 3 6 = [] := by
  unfold make_ngrams
  have hgen : ∀ (es : List (Nat × Str)), (∀ x ∈ es, x.2 ∈ tokens) →
      es.foldl
        (fun terms pt =>
          (List.range' 3 (min (6 + 1) (pt.2.length + 1) - 3)).foldl
            (fun acc w => addPos acc (pt.2.take w) pt.1) terms)
        [] = [] := by
    intro es
    induction es with
    | nil => intro _; rfl
    | cons x es' ih =>
      intro hes
      rw [List.foldl_cons]
      have hshort := h x.2 (hes x (List.mem_cons_self _ _))
      have hzero : min (6 + 1) (x.2.length + 1) - 3 = 0 := by omega
      rw [hzero]
      exact ih fun y hy => hes y (List.mem_cons_of_mem _ hy)
  exact hgen (pyEnum 0 tokens) fun x hx => pyEnum_mem 0 x hx


/-! ## Claim C7 -/

/-- C7: for every input string, `tokenize` returns tokens that are all
lowercase (fixed points of lowering), nonempty, contain no punctuation-class
character, and are not stopwords; and
`tokenize("Hello world") = ["hello", "world"]` (order preserved). -/
theorem c7_tokenize_wellformed :
    (∀ (blob : Str) (tok : Str), tok ∈ make_tokens blob →
      tok ≠ [] ∧ (∀ c ∈ tok, Char.toLower c = c ∧ c ∉ PUNCT) ∧
      tok ∉ STOP_WORDS) ∧
    make_tokens ("Hello world".toList) = ["hello".toList, "world".toList] :=
  ⟨make_tokens_props, by decide⟩

/-- C7-witness: the token `hello` produced from `"Hello world"` is nonempty
and no stopword. -/
theorem c7_tokenize_wellformed_wit :
    ("hello".toList ∈ make_tokens ("Hello world".toList)) ∧
    "hello".toList ≠ [] ∧ "hello".toList ∉ STOP_WORDS := by
  have h := c7_tokenize_wellformed.1 ("Hello world".toList) ("hello".toList)
    (by decide)
  exact ⟨by decide, h.1, h.2.2⟩


/-! ## Claim C8 -/

/-- C8: every term `make_ngrams` emits is a front-prefix of some input token
with length in `[3, 6]`, its position list holds each 0-based token position
at most once, and tokens shorter than `MIN_GRAM = 3` emit no terms at all. -/
theorem c8_ngram_prefix_bounds :
    (∀ (tokens : List Str), ∀ e ∈ make_ngrams tokens 3 6,
      (∃ tok ∈ tokens, ∃ w, e.1 = tok.take w) ∧
      3 ≤ e.1.length ∧ e.1.length ≤ 6 ∧ e.2.Nodup) ∧
    (∀ tokens : List Str, (∀ tok ∈ tokens, tok.length < 3) →
      make_ngrams tokens 3 6 = []) :=
  ⟨make_ngrams_props, fun _ h => make_ngrams_short h⟩

/-- C8-witness: `hel` emitted for `["hello"]` with position `[0]`, and a list
of short tokens emits nothing. -/
theorem c8_ngram_prefix_bounds_wit :
    (("hel".toList, ([0] : List Nat)) ∈ make_ngrams ["hello".toList] 3 6) ∧
    ("hel".toList = ("hello".toList).take 3) ∧
    make_ngrams ["he".toList, "to".toList] 3 6 = [] := by
  have h1 := c8_ngram_prefix_bounds.1 ["hello".toList] ("hel".toList, [0])
    (by decide)
  have h2 := c8_ngram_prefix_bounds.2 ["he".toList, "to".toList] (by decide)
  exact ⟨by decide, by decide, h2⟩
